import Mathlib

/-!
# Verification of the pixelsorter interval-sort engine

Shallow embedding of the pixel-sorting engine (`pixelsort.py`,
`pixelsorter/sort.py`, `pixelpaths.py`, `util.py`, `pixelkeys.py`).

Pixels are triples of channel values; images are row-major lists of
pixels.  Python floats are modelled by rationals; the process-wide
pseudo-random source is modelled by oracle functions (an index-to-value
map together with a draw counter threaded through the computation).
-/

abbrev Pixel := ℕ × ℕ × ℕ

abbrev Coord := ℕ × ℕ

/-- `util.coords_to_index`: row-major flat index `y * width + x`. -/
def coordsToIndex (c : Coord) (width : ℕ) : ℕ := c.2 * width + c.1

/-- `util.clamp`: clamp `x` between a minimum `a` and a maximum `b`. -/
def clamp (x a b : ℚ) : ℚ := max a (min x b)

/-- `pixelkeys.luma`: ITU-R BT.709 relative luminance,
`0.2126*R + 0.7152*G + 0.0722*B` (decimal coefficients as rationals). -/
def luma (p : Pixel) : ℚ :=
  (2126 * p.1 + 7152 * p.2.1 + 722 * p.2.2 : ℚ) / 10000

/-- `pixelkeys.red`: the red channel of a pixel. -/
def red (p : Pixel) : ℚ := p.1

/-- Python `int(q)` on a float: truncation toward zero. -/
def pyInt (q : ℚ) : ℤ := q.num.tdiv q.den

/-- Python tuple comparison on pixels: lexicographic order on the three
channels.  This is the order `sorted` uses when no key is supplied. -/
def tupleLe (a b : Pixel) : Prop :=
  a.1 < b.1 ∨ (a.1 = b.1 ∧ (a.2.1 < b.2.1 ∨ (a.2.1 = b.2.1 ∧ a.2.2 ≤ b.2.2)))

instance : DecidableRel tupleLe := fun a b => by
  unfold tupleLe; infer_instance

/-- The effective sort key of `sort_image`: when `discretize > 0` (and a
key is present) each key value is divided by `discretize` and truncated
to an integer (`int(key(p) / discretize)`); otherwise the key itself. -/
def effKey (key : Pixel → ℚ) (discretize : ℕ) : Pixel → ℚ :=
  if 0 < discretize then fun p => (pyInt (key p / discretize) : ℚ) else key

/-- The "before" relation of Python's stable `sorted(l, key, reverse)`:
an element `a` may stay to the left of `b` iff this relation holds, so
ties (equal keys) keep their original relative order in both the
ascending and the `reverse=True` case. -/
def pySortRel (key : Option (Pixel → ℚ)) (discretize : ℕ) (reverse : Bool) :
    Pixel → Pixel → Prop :=
  match key with
  | none => fun a b => if reverse then tupleLe b a else tupleLe a b
  | some k =>
      let ek := effKey k discretize
      fun a b => if reverse then ek b ≤ ek a else ek a ≤ ek b

instance (key : Option (Pixel → ℚ)) (d : ℕ) (r : Bool) :
    DecidableRel (pySortRel key d r) := fun a b => by
  unfold pySortRel; cases key <;> dsimp <;> infer_instance

/-- Python's built-in `sorted(l, key=key, reverse=reverse)`: a stable
sort, modelled by insertion sort with `pySortRel`. -/
def pySorted (key : Option (Pixel → ℚ)) (discretize : ℕ) (reverse : Bool)
    (l : List Pixel) : List Pixel :=
  List.insertionSort (pySortRel key discretize reverse) l

/-! ## `sort_filter` (pixelsorter/sort.py) -/

/-- Python list indexing used by the mirror loop: a negative index `p`
addresses position `n + p` from the end. -/
def pyIdx (n : ℕ) (p : ℤ) : ℕ := if 0 ≤ p then p.toNat else (n + p).toNat

/-- The mirror loop of `sort_filter`: starting from `get_index =
put_index = 0`, place `l[get_index]` at `nl[put_index]`, increment
`get_index`, increment `put_index` when nonnegative, then negate it.
The loop runs `l.length - getIdx` times; `fuel` bounds it structurally. -/
def mirrorGo (l : List Pixel) : ℕ → ℕ → ℤ → List Pixel → List Pixel
  | 0, _, _, nl => nl
  | fuel + 1, getIdx, putIdx, nl =>
    if getIdx < l.length then
      let nl' := nl.set (pyIdx l.length putIdx) (l.getD getIdx (0, 0, 0))
      let put' : ℤ := if 0 ≤ putIdx then -(putIdx + 1) else -putIdx
      mirrorGo l fuel (getIdx + 1) put' nl'
    else nl

/-- The full mirror pass of `sort_filter` (`nl` starts as a copy of `l`). -/
def mirrorList (l : List Pixel) : List Pixel := mirrorGo l l.length 0 0 l

/-- `sort_filter(l, mirror, splice, splice_random)`.  `spliceDraw` is the
oracle value returned by `randrange(len(l))` when `splice_random` is set. -/
def sortFilter (spliceDraw : ℕ) (mirror : Bool) (splice : ℚ)
    (spliceRandom : Bool) (l : List Pixel) : List Pixel :=
  if l.length = 0 then l
  else
    let nl := if mirror then mirrorList l else l
    let spliceStart : Option ℕ :=
      if spliceRandom then some spliceDraw
      else if 0 < splice then some (pyInt ((l.length - 1 : ℚ) * splice)).toNat
      else none
    match spliceStart with
    | some s => nl.drop s ++ nl.take s
    | none => nl

/-! ## `sort_image` (pixelsorter/sort.py) -/

/-- The caller-supplied sorting configuration of `sort_image`, together
with the oracles modelling the process-wide pseudo-random source
(`intervalRng` for `randint`, `spliceRng` for `randrange`) and the
injected edge-detector component. -/
structure SortCfg where
  size : ℕ × ℕ
  vertical : Bool := false
  path : Option ((ℕ × ℕ) → List (List Coord)) := none
  maxInterval : ℕ := 0
  progressiveAmount : ℚ := 0
  randomize : Bool := false
  edgeThreshold : ℚ := 0
  edgeData : Option (List ℚ) := none
  imageThreshold : Option ℚ := none
  imageMask : Option (List Pixel) := none
  key : Option (Pixel → ℚ) := none
  discretize : ℕ := 0
  reverse : Bool := false
  mirror : Bool := false
  splice : ℚ := 0
  spliceRandom : Bool := false
  intervalRng : ℕ → ℕ := fun _ => 0
  spliceRng : ℕ → ℕ := fun _ => 0
  edgeDetect : List Pixel → ℕ × ℕ → List ℚ := fun _ _ => []

/-- `if edge_threshold > 0 and edge_data is None: edge_data =
edge_detect(image, size)`. -/
def effEdgeData (cfg : SortCfg) (image : List Pixel) : Option (List ℚ) :=
  if 0 < cfg.edgeThreshold ∧ cfg.edgeData = none then
    some (cfg.edgeDetect image cfg.size)
  else cfg.edgeData

/-- `if image_threshold is not None: image_threshold =
clamp(image_threshold, 0.0, 1.0)`. -/
def effImageThreshold (cfg : SortCfg) : Option ℚ :=
  cfg.imageThreshold.map fun t => clamp t 0 1

/-- The three early-break tests of the interval-gathering loop of
`sort_image`: external image mask luma above 128; edge datum above the
(positive) edge threshold (Python's chained `edge_data[idx] >
edge_threshold > 0`); image luma outside `[t, 255 - t]` for
`t = image_threshold * 255 / 2`. -/
def breakAt (maskOpt : Option (List Pixel)) (edOpt : Option (List ℚ))
    (eThr : ℚ) (iThrOpt : Option ℚ) (image : List Pixel) (idx : ℕ) : Bool :=
  (match maskOpt with
   | some m => decide (128 < luma (m.getD idx (0, 0, 0)))
   | none => false) ||
  (match edOpt with
   | some e => decide (eThr < e.getD idx 0 ∧ 0 < eThr)
   | none => false) ||
  (match iThrOpt with
   | some thr =>
       let brightness := luma (image.getD idx (0, 0, 0))
       let t := thr * 255 / 2
       decide (brightness < t ∨ 255 - t < brightness)
   | none => false)

/-- The inner `while i < interval or interval == 0` loop of `sort_image`:
consume coordinates from the row, breaking the interval early (without
including the pixel) when a break test fires.  Returns the gathered flat
indices, the unconsumed remainder of the row, and whether the row was
exhausted (`StopIteration`). -/
def takeChunk (brk : ℕ → Bool) (width : ℕ) (interval : ℚ) :
    List Coord → ℕ → List ℕ × List Coord × Bool
  | [], i =>
    if ¬((i : ℚ) < interval ∨ interval = 0) then ([], [], false)
    else ([], [], true)
  | c :: rest, i =>
    if ¬((i : ℚ) < interval ∨ interval = 0) then ([], c :: rest, false)
    else
      let idx := coordsToIndex c width
      if brk idx then ([], rest, false)
      else
        let r := takeChunk brk width interval rest (i + 1)
        (idx :: r.1, r.2)

/-- One row of the `sort_image` traversal: repeatedly grow the current
maximum interval (progressive mode), draw an interval length (the
`randint` oracle in randomized mode), gather a chunk, and record it as a
run when nonempty, until the row iterator is exhausted.  The state
`(cmi, ctr)` is the current maximum interval and the random-draw
counter; the fuel bounds the number of chunks. -/
def rowRuns (cfg : SortCfg) (brk : ℕ → Bool) :
    ℕ → List Coord → ℚ → ℕ → List (List ℕ) × ℚ × ℕ
  | 0, _, cmi, ctr => ([], cmi, ctr)
  | fuel + 1, row, cmi, ctr =>
    let cmi' :=
      if 0 < cfg.progressiveAmount then
        cmi + cfg.maxInterval * cfg.progressiveAmount
      else cmi
    let draw : ℚ × ℕ :=
      if cfg.randomize ∧ 0 < cmi' then ((cfg.intervalRng ctr : ℕ), ctr + 1)
      else (cmi', ctr)
    let chunk := takeChunk brk cfg.size.1 draw.1 row 0
    let runs := if chunk.1 = [] then [] else [chunk.1]
    if chunk.2.2 then (runs, cmi', draw.2)
    else
      let next := rowRuns cfg brk fuel chunk.2.1 cmi' draw.2
      (runs ++ next.1, next.2)

/-- All runs of a full path traversal; the interval state persists from
one row to the next, as in the source. -/
def pathRuns (cfg : SortCfg) (brk : ℕ → Bool) :
    List (List Coord) → ℚ → ℕ → List (List ℕ)
  | [], _, _ => []
  | row :: rows, cmi, ctr =>
    let r := rowRuns cfg brk (row.length + 1) row cmi ctr
    r.1 ++ pathRuns cfg brk rows r.2.1 r.2.2

/-- The seed of `current_max_interval`: `max_interval *
progressive_amount` in progressive mode, else `max_interval`. -/
def initialCmi (cfg : SortCfg) : ℚ :=
  if 0 < cfg.progressiveAmount then cfg.maxInterval * cfg.progressiveAmount
  else cfg.maxInterval

/-- `pixelpaths.horizontal_path`. -/
def horizontalPath (size : ℕ × ℕ) : List (List Coord) :=
  (List.range size.2).map fun y => (List.range size.1).map fun x => (x, y)

/-- `pixelpaths.vertical_path`. -/
def verticalPath (size : ℕ × ℕ) : List (List Coord) :=
  (List.range size.1).map fun x => (List.range size.2).map fun y => (x, y)

/-- Path selection of `sort_image`: the supplied path called on the
image size, else the horizontal or vertical default. -/
def sortPath (cfg : SortCfg) : List (List Coord) :=
  match cfg.path with
  | none => if cfg.vertical then verticalPath cfg.size else horizontalPath cfg.size
  | some p => p cfg.size

/-- The sort intervals (as lists of flat pixel indices) computed by the
traversal loop of `sort_image`.  The break tests read only the input
image, the mask image and the edge data, never the output buffer, so
the runs are independent of the interleaved writes. -/
def computeRuns (cfg : SortCfg) (image : List Pixel)
    (path : List (List Coord)) : List (List ℕ) :=
  pathRuns cfg
    (breakAt cfg.imageMask (effEdgeData cfg image) cfg.edgeThreshold
      (effImageThreshold cfg) image)
    path (initialCmi cfg) 0

/-- The write-back loop `for i in range(len(px_indices)):
out_pixels[px_indices[i]] = sorted_pixels[i]`. -/
def writePairs (out : List Pixel) (ps : List (ℕ × Pixel)) : List Pixel :=
  ps.foldl (fun o iv => o.set iv.1 iv.2) out

/-- Flushing one run: gather the run's pixels from the output buffer,
stable-sort them, apply `sort_filter`, and write them back to the run's
own positions.  `k` is the index of the run (feeding the `randrange`
oracle). -/
def applyRun (cfg : SortCfg) (k : ℕ) (out : List Pixel)
    (run : List ℕ) : List Pixel :=
  let gathered := run.map fun i => out.getD i (0, 0, 0)
  let sortedPx := pySorted cfg.key cfg.discretize cfg.reverse gathered
  let finalPx := sortFilter (cfg.spliceRng k) cfg.mirror cfg.splice
    cfg.spliceRandom sortedPx
  writePairs out (run.zip finalPx)

/-- Flush every run in traversal order. -/
def applyRuns (cfg : SortCfg) : List (List ℕ) → ℕ → List Pixel → List Pixel
  | [], _, out => out
  | run :: rs, k, out => applyRuns cfg rs (k + 1) (applyRun cfg k out run)

/-- `sort_image`: the output buffer starts as a copy of the input
(`out_pixels = list(image)`) and every run is flushed into it. -/
def sortImage (cfg : SortCfg) (image : List Pixel) : List Pixel :=
  applyRuns cfg (computeRuns cfg image (sortPath cfg)) 0 image

/-! ## Explicit two-buffer state for the frame-effect claim -/

/-- The two buffers live in `sort_image`: the caller's input pixel list
and the freshly allocated output list. -/
structure SortSt where
  img : List Pixel
  out : List Pixel

/-- Flushing one run against the explicit state: reads gather from the
output buffer and the single write of the loop targets the output
buffer; the input buffer is not assigned anywhere in the source. -/
def applyRunSt (cfg : SortCfg) (k : ℕ) (st : SortSt) (run : List ℕ) : SortSt :=
  { img := st.img, out := applyRun cfg k st.out run }

/-- All runs, against the explicit state. -/
def applyRunsSt (cfg : SortCfg) : List (List ℕ) → ℕ → SortSt → SortSt
  | [], _, st => st
  | run :: rs, k, st => applyRunsSt cfg rs (k + 1) (applyRunSt cfg k st run)

/-- `sort_image` with both buffers explicit: the runs are computed from
the input buffer and flushed into the output buffer. -/
def sortImageSt (cfg : SortCfg) (st : SortSt) : SortSt :=
  applyRunsSt cfg (computeRuns cfg st.img (sortPath cfg)) 0 st

/-! ## `pixelpaths.py`: angled lines -/

/-- `util.sign`. -/
def signQ (x : ℚ) : ℤ := if x < 0 then -1 else if 0 < x then 1 else 0

/-- `util.in_bounds`: `min_b ≤ point < max_b` componentwise. -/
def inBounds (minB maxB p : ℤ × ℤ) : Bool :=
  !(decide (maxB.1 ≤ p.1) || decide (p.1 < minB.1)) &&
  !(decide (maxB.2 ≤ p.2) || decide (p.2 < minB.2))

/-- The slope preparation of `draw_line`: when `slope > 1` the slope is
inverted and the roles of the x and y axes are switched. -/
def lineParams (slope : ℚ) : ℚ × Bool :=
  if 1 < slope then (1 / slope, true) else (slope, false)

/-- The stepping loop of `draw_line`: yield the current point while it
is in bounds, step `dx` by one, accumulate `|slope|` into the error
term, step `dy` by `sign(slope)` when the error exceeds zero (then
decrement the error by one), and recompute the point — with the axes
switched when `switch` is set. -/
def drawLineGo (x0 y0 : ℤ) (size : ℤ × ℤ) (slopeA : ℚ) (sgn : ℤ)
    (switch : Bool) : ℕ → ℤ → ℤ → ℚ → ℤ × ℤ → List (ℤ × ℤ)
  | 0, _, _, _, _ => []
  | fuel + 1, dx, dy, err, cur =>
    if inBounds (0, 0) size cur then
      let dx' := dx + 1
      let err' := err + |slopeA|
      let step : ℤ × ℚ := if 0 < err' then (dy + sgn, err' - 1) else (dy, err')
      let cur' : ℤ × ℤ :=
        if switch then (x0 + step.1, y0 + dx') else (dx' + x0, step.1 + y0)
      cur :: drawLineGo x0 y0 size slopeA sgn switch fuel dx' step.1 step.2 cur'
    else []

/-- `pixelpaths.draw_line(start, size, slope)`, with enough fuel to
cover the bounded stepping. -/
def drawLine (fuel : ℕ) (start : ℤ × ℤ) (size : ℤ × ℤ) (slope : ℚ) :
    List (ℤ × ℤ) :=
  let ps := lineParams slope
  drawLineGo start.1 start.2 size ps.1 (signQ ps.1) ps.2 fuel 0 0 (-1) start

/-! ## `pixelpaths.py`: concentric rectangles -/

/-- Python `range(a, b)` over the integers. -/
def ascRange (a b : ℤ) : List ℤ :=
  (List.range (b - a).toNat).map fun (k : ℕ) => a + (k : ℤ)

/-- Python `range(a, b, -1)` over the integers. -/
def descRange (a b : ℤ) : List ℤ :=
  (List.range (a - b).toNat).map fun (k : ℕ) => a - (k : ℤ)

/-- `conc_rect_iter` inside `concentric_rectangle_path`: the clockwise
perimeter of the current rectangle; when the rectangle is one pixel
tall, stop after the top edge so the path does not double back. -/
def concRectIter (minX maxX minY maxY : ℤ) : List (ℤ × ℤ) :=
  let top := (ascRange minX maxX).map fun x => (x, minY)
  if minY + 1 = maxY then top
  else
    top ++ ((ascRange (minY + 1) maxY).map fun y => (maxX - 1, y)) ++
      ((descRange (maxX - 2) (minX - 1)).map fun x => (x, maxY - 1)) ++
      ((descRange (maxY - 2) minY).map fun y => (minX, y))

/-- The shrinking loop of `concentric_rectangle_path`. -/
def concRectRows (minX maxX minY maxY : ℤ) : List (List (ℤ × ℤ)) :=
  if minX < maxX ∧ minY < maxY then
    concRectIter minX maxX minY maxY ::
      concRectRows (minX + 1) (maxX - 1) (minY + 1) (maxY - 1)
  else []
termination_by (maxX - minX).toNat
decreasing_by omega

/-- `pixelpaths.concentric_rectangle_path(size)`. -/
def concentricRectanglePath (size : ℤ × ℤ) : List (List (ℤ × ℤ)) :=
  concRectRows 0 size.1 0 size.2

/-! ## `pixelpaths.py`: random-walk distribution normalization -/

/-- The 8 adjacent neighbor offsets `(dx, dy) ≠ (0, 0)` with
`dx, dy ∈ {-1, 0, 1}`, in the order the source builds them. -/
def neighbors : List (ℤ × ℤ) :=
  ([-1, 0, 1].flatMap fun dx => [-1, 0, 1].map fun dy => (dx, dy)).filter
    fun n => decide (n.2 ≠ 0 ∨ n.1 ≠ 0)

/-- Dictionary lookup in a caller-supplied distribution (an association
list with distinct keys, modelling the Python dict). -/
def distLookup (d : List ((ℤ × ℤ) × ℚ)) (k : ℤ × ℤ) : Option ℚ :=
  match d.find? fun e => e.1 = k with
  | some e => some e.2
  | none => none

/-- `for n in neighbors: if n not in distribution: distribution[n] = 0`. -/
def fillNeighbors (d : List ((ℤ × ℤ) × ℚ)) : List ((ℤ × ℤ) × ℚ) :=
  d ++ (neighbors.filter fun n => distLookup d n = none).map fun n => (n, 0)

/-- `neighbor_sum = sum(distribution[n] for n in neighbors)`. -/
def neighborSum (d : List ((ℤ × ℤ) × ℚ)) : ℚ :=
  (neighbors.map fun n => (distLookup d n).getD 0).sum

/-- The distribution handling of `random_walk_path` for a caller-supplied
distribution: fill the missing neighbors with weight 0, report an error
when the neighbor weights sum to a nonpositive value, and otherwise
divide every entry by the neighbor sum.  This runs before any walk is
generated. -/
def normalizeDistribution (d : List ((ℤ × ℤ) × ℚ)) :
    Except String (List ((ℤ × ℤ) × ℚ)) :=
  let d' := fillNeighbors d
  let s := neighborSum d'
  if s ≤ 0 then
    Except.error "Distribution must be positive, nonzero for adjacent neighbors"
  else Except.ok (d'.map fun e => (e.1, e.2 / s))

/-! ## `pixelsort.py`: applying a sort mask -/

/-- The run accumulation of `apply_sort_mask` along one path row: each
flat index is appended to the pending interval, and when the boundary
test `sort_mask[idx] == 1 or random() < sort_mask[idx]` fires the
pending interval is flushed as a run.  `rQ` is the oracle for the
`random()` draws (indexed by the call counter `ctr`, incremented only
when `random()` is actually evaluated, i.e. when the first disjunct is
false).  Returns the flushed runs, the pending unflushed indices, and
the final counter. -/
def maskRunsGo (mask : List ℚ) (rQ : ℕ → ℚ) :
    List ℕ → List ℕ → ℕ → List (List ℕ) × List ℕ × ℕ
  | [], acc, ctr => ([], acc, ctr)
  | i :: rest, acc, ctr =>
    let m := mask.getD i 0
    let hit : Bool × ℕ :=
      if m = 1 then (true, ctr) else (decide (rQ ctr < m), ctr + 1)
    let acc' := acc ++ [i]
    if hit.1 then
      let next := maskRunsGo mask rQ rest [] hit.2
      (acc' :: next.1, next.2)
    else maskRunsGo mask rQ rest acc' hit.2

/-- One row of `apply_sort_mask`: flush each run (stable sort and write
back); the pending indices left when the row is exhausted are dropped
without being sorted. -/
def applyMaskRow (key : Option (Pixel → ℚ)) (discretize : ℕ) (reverse : Bool)
    (mask : List ℚ) (rQ : ℕ → ℚ) (width : ℕ) (out : List Pixel)
    (row : List Coord) (ctr : ℕ) : List Pixel × ℕ :=
  let r := maskRunsGo mask rQ (row.map fun c => coordsToIndex c width) [] ctr
  (r.1.foldl
    (fun o run =>
      writePairs o
        (run.zip (pySorted key discretize reverse
          (run.map fun i => o.getD i (0, 0, 0))))) out,
   r.2.2)

/-- `pixelsort.apply_sort_mask`: walk every row of the path against the
mask, flushing runs into the output buffer (which starts as a copy of
the input). -/
def applySortMask (key : Option (Pixel → ℚ)) (discretize : ℕ)
    (reverse : Bool) (mask : List ℚ) (rQ : ℕ → ℚ) (width : ℕ)
    (image : List Pixel) (path : List (List Coord)) : List Pixel :=
  (path.foldl
    (fun st row => applyMaskRow key discretize reverse mask rQ width st.1 row st.2)
    (image, 0)).1

/-! ## Helper lemmas -/

theorem pyInt_eq_floor {q : ℚ} (h : 0 ≤ q) : pyInt q = ⌊q⌋ := by
  rw [pyInt, Rat.floor_def]
  exact Int.tdiv_eq_ediv (Rat.num_nonneg.mpr h) (by positivity)

/-- The elements at even positions (1st, 3rd, 5th, ... in human terms):
the part of a list that the mirror pass sends to the front. -/
def evens {α : Type*} : List α → List α
  | [] => []
  | [a] => [a]
  | a :: _ :: rest => a :: evens rest

/-- The elements at odd positions: the part of a list that the mirror
pass sends to the back, outermost first. -/
def odds {α : Type*} (l : List α) : List α := evens l.tail

theorem evens_cons_tail {α : Type*} (b : α) (r : List α) :
    evens (b :: r) = b :: evens r.tail := by
  cases r <;> simp [evens]

theorem odds_cons_cons {α : Type*} (a b : α) (r : List α) :
    odds (a :: b :: r) = b :: odds r := by
  simp only [odds, List.tail_cons]
  exact evens_cons_tail b r

theorem evens_append_reverse_odds_perm {α : Type*} :
    ∀ l : List α, (evens l ++ (odds l).reverse).Perm l := by
  intro l
  induction l using evens.induct with
  | case1 => simp [evens, odds]
  | case2 a => simp [evens, odds]
  | case3 a b r ih =>
    rw [show evens (a :: b :: r) = a :: evens r from rfl, odds_cons_cons]
    refine List.Perm.trans ?_ ((ih.cons b).cons a)
    rw [List.reverse_cons]
    refine List.Perm.cons a ?_
    simp only [List.append_eq]
    rw [← List.append_assoc]
    exact List.Perm.trans List.perm_append_comm (List.Perm.refl _)

theorem take_set_le {α : Type*} (l : List α) (i k : ℕ) (a : α) (h : k ≤ i) :
    (l.set i a).take k = l.take k := by
  apply List.ext_getElem?
  intro j
  simp only [List.getElem?_take]
  by_cases hj : j < k
  · rw [if_pos hj, if_pos hj, List.getElem?_set_ne (by omega)]
  · rw [if_neg hj, if_neg hj]

theorem take_succ_set {α : Type*} (l : List α) (i : ℕ) (a : α)
    (h : i < l.length) : (l.set i a).take (i + 1) = l.take i ++ [a] := by
  rw [List.set_eq_take_cons_drop a h]
  have hlen : (l.take i).length = i := List.length_take_of_le (by omega)
  rw [show i + 1 = (l.take i).length + 1 by rw [hlen]]
  rw [List.take_append]
  simp

theorem drop_set_self {α : Type*} (l : List α) (i : ℕ) (a : α)
    (h : i < l.length) : (l.set i a).drop i = a :: l.drop (i + 1) := by
  rw [List.set_eq_take_cons_drop a h]
  exact List.drop_left' (List.length_take_of_le (by omega))

theorem drop_set_lt {α : Type*} (l : List α) (i k : ℕ) (a : α) (h : i < k) :
    (l.set i a).drop k = l.drop k := by
  rw [List.drop_set, if_pos h]

theorem evens_drop {α : Type*} (l : List α) (d : α) (m : ℕ)
    (h : m < l.length) :
    evens (l.drop m) = l.getD m d :: evens (l.drop (m + 2)) := by
  rw [List.drop_eq_getElem_cons h, evens_cons_tail, List.getD_eq_getElem l d h]
  congr 1
  rw [show m + 2 = m + 1 + 1 by omega, ← List.drop_drop]
  cases l.drop (m + 1) <;> simp

/-- The canonical form of the mirror loop's `put_index` after `g`
placements: `g/2` after an even number of steps, `-(g+1)/2` after an
odd number. -/
def canonPut (g : ℕ) : ℤ :=
  if g % 2 = 0 then ((g / 2 : ℕ) : ℤ) else -(((g + 1) / 2 : ℕ) : ℤ)

theorem canonPut_succ (g : ℕ) :
    (if 0 ≤ canonPut g then -(canonPut g + 1) else -canonPut g) =
      canonPut (g + 1) := by
  unfold canonPut
  rcases Nat.even_or_odd g with ⟨k, hk⟩ | ⟨k, hk⟩
  · rw [if_pos (show g % 2 = 0 by omega),
      if_pos (show (0 : ℤ) ≤ ((g / 2 : ℕ) : ℤ) by positivity),
      if_neg (show ¬(g + 1) % 2 = 0 by omega)]
    push_cast
    omega
  · rw [if_neg (show ¬g % 2 = 0 by omega),
      if_neg (show ¬(0 : ℤ) ≤ -(((g + 1) / 2 : ℕ) : ℤ) by push_cast; omega),
      if_pos (show (g + 1) % 2 = 0 by omega)]
    push_cast
    omega

theorem mirrorGo_step (l : List Pixel) (fuel getIdx : ℕ) (putIdx : ℤ)
    (nl : List Pixel) (h : getIdx < l.length) :
    mirrorGo l (fuel + 1) getIdx putIdx nl =
      mirrorGo l fuel (getIdx + 1)
        (if 0 ≤ putIdx then -(putIdx + 1) else -putIdx)
        (nl.set (pyIdx l.length putIdx) (l.getD getIdx (0, 0, 0))) := by
  rw [mirrorGo, if_pos h]

theorem mirror_target_terminal (l nl : List Pixel) (g : ℕ)
    (hgl : g = l.length) :
    nl.take ((g + 1) / 2) ++ evens (l.drop (2 * ((g + 1) / 2))) ++
      (evens (l.drop (2 * (g / 2) + 1))).reverse ++
      nl.drop (l.length - g / 2) = nl := by
  subst hgl
  rw [List.drop_eq_nil_of_le (show l.length ≤ 2 * ((l.length + 1) / 2) by omega),
    List.drop_eq_nil_of_le (show l.length ≤ 2 * (l.length / 2) + 1 by omega)]
  simp only [evens, List.reverse_nil, List.append_nil]
  rw [show l.length - l.length / 2 = (l.length + 1) / 2 by omega]
  exact List.take_append_drop _ nl

theorem mirrorGo_canon (l : List Pixel) :
    ∀ (fuel g : ℕ) (nl : List Pixel), l.length - g ≤ fuel →
      nl.length = l.length → g ≤ l.length →
      mirrorGo l fuel g (canonPut g) nl =
        nl.take ((g + 1) / 2) ++ evens (l.drop (2 * ((g + 1) / 2))) ++
          (evens (l.drop (2 * (g / 2) + 1))).reverse ++
          nl.drop (l.length - g / 2) := by
  intro fuel
  induction fuel with
  | zero =>
    intro g nl hfuel hlen hg
    rw [mirrorGo]
    exact (mirror_target_terminal l nl g (by omega)).symm
  | succ fuel ih =>
    intro g nl hfuel hlen hg
    rcases eq_or_lt_of_le hg with hg' | hg'
    · rw [mirrorGo, if_neg (by omega)]
      exact (mirror_target_terminal l nl g (by omega)).symm
    · rw [mirrorGo_step l fuel g (canonPut g) nl hg', canonPut_succ g]
      rcases Nat.even_or_odd g with ⟨k, hk⟩ | ⟨k, hk⟩
      · -- even number of placements done: the next write goes to the front
        have hpi : pyIdx l.length (canonPut g) = k := by
          rw [canonPut, if_pos (show g % 2 = 0 by omega), pyIdx,
            if_pos (by positivity)]
          simp only [Int.toNat_natCast]
          omega
        rw [hpi, ih (g + 1) _ (by omega) (by rw [List.length_set]; exact hlen)
          (by omega)]
        simp only [show (g + 1 + 1) / 2 = k + 1 by omega,
          show (g + 1) / 2 = k by omega, show g / 2 = k by omega,
          show 2 * (k + 1) = g + 2 by omega, show 2 * k + 1 = g + 1 by omega,
          show 2 * k = g by omega]
        rw [take_succ_set nl k _ (by omega),
          drop_set_lt nl k (l.length - k) _ (by omega),
          evens_drop l (0, 0, 0) g (by omega)]
        simp [List.append_assoc]
      · -- odd number of placements done: the next write goes to the back
        have hpi : pyIdx l.length (canonPut g) = l.length - k - 1 := by
          rw [canonPut, if_neg (show ¬g % 2 = 0 by omega), pyIdx,
            if_neg (by push_cast; omega)]
          push_cast
          omega
        rw [hpi, ih (g + 1) _ (by omega) (by rw [List.length_set]; exact hlen)
          (by omega)]
        simp only [show (g + 1 + 1) / 2 = k + 1 by omega,
          show (g + 1) / 2 = k + 1 by omega, show g / 2 = k by omega,
          show 2 * (k + 1) + 1 = g + 2 by omega,
          show 2 * (k + 1) = g + 1 by omega, show 2 * k + 1 = g by omega]
        rw [take_set_le nl (l.length - k - 1) (k + 1) _ (by omega),
          show l.length - (k + 1) = l.length - k - 1 by omega,
          drop_set_self nl (l.length - k - 1) _ (by omega),
          show l.length - k - 1 + 1 = l.length - k by omega,
          evens_drop l (0, 0, 0) g (by omega), List.reverse_cons]
        simp [List.append_assoc]

/-- The mirror pass sends the elements at even positions to the front,
in order, and the elements at odd positions to the back, outermost
first. -/
theorem mirrorList_eq (l : List Pixel) :
    mirrorList l = evens l ++ (odds l).reverse := by
  rw [mirrorList,
    show (0 : ℤ) = canonPut 0 from rfl,
    mirrorGo_canon l l.length 0 l (by omega) rfl (by omega)]
  simp [odds, List.drop_one]

theorem mirrorList_perm (l : List Pixel) : (mirrorList l).Perm l := by
  rw [mirrorList_eq]
  exact evens_append_reverse_odds_perm l

/-! ## The benign single-row configuration -/

theorem pySorted_length (key : Option (Pixel → ℚ)) (d : ℕ) (r : Bool)
    (l : List Pixel) : (pySorted key d r l).length = l.length :=
  List.length_insertionSort _ l

theorem pySorted_perm (key : Option (Pixel → ℚ)) (d : ℕ) (r : Bool)
    (l : List Pixel) : (pySorted key d r l).Perm l :=
  List.perm_insertionSort _ l

theorem sortFilter_noop (draw : ℕ) (l : List Pixel) :
    sortFilter draw false 0 false l = l := by
  rw [sortFilter]
  split
  · rfl
  · simp

theorem breakAt_disabled (ed : Option (List ℚ)) (img : List Pixel) (idx : ℕ) :
    breakAt none ed 0 none img idx = false := by
  cases ed <;> simp [breakAt]

theorem takeChunk_zero (brk : ℕ → Bool) (w : ℕ)
    (hbrk : ∀ i, brk i = false) :
    ∀ (row : List Coord) (i : ℕ),
      takeChunk brk w 0 row i = (row.map (coordsToIndex · w), [], true) := by
  intro row
  induction row with
  | nil => intro i; rw [takeChunk]; simp
  | cons c rest ih =>
    intro i
    rw [takeChunk]
    simp only [hbrk, List.map_cons]
    rw [if_neg (by simp), if_neg (by simp [Bool.false_eq_true]), ih (i + 1)]

theorem initialCmi_zero (cfg : SortCfg) (h : cfg.maxInterval = 0) :
    initialCmi cfg = 0 := by
  rw [initialCmi, h]
  split <;> simp

theorem rowRuns_zero (cfg : SortCfg) (h : cfg.maxInterval = 0)
    (brk : ℕ → Bool) (hbrk : ∀ i, brk i = false) (row : List Coord)
    (ctr : ℕ) :
    rowRuns cfg brk (row.length + 1) row 0 ctr =
      (if row = [] then []
       else [row.map (coordsToIndex · cfg.size.1)], 0, ctr) := by
  rw [rowRuns]
  simp only [h, Nat.cast_zero, zero_mul, add_zero, ite_self, lt_irrefl,
    and_false, if_false, takeChunk_zero brk cfg.size.1 hbrk row 0]
  by_cases hrow : row = []
  · subst hrow; simp
  · simp [hrow]

theorem map_getD_range {α : Type*} (l : List α) (d : α) :
    (List.range l.length).map (fun i => l.getD i d) = l := by
  apply List.ext_getElem
  · simp
  · intro i h1 h2
    simp only [List.getElem_map, List.getElem_range]
    exact List.getD_eq_getElem l d h2

theorem writePairs_range' :
    ∀ (vals out : List Pixel) (a : ℕ), a + vals.length ≤ out.length →
      writePairs out ((List.range' a vals.length).zip vals) =
        out.take a ++ vals ++ out.drop (a + vals.length) := by
  intro vals
  induction vals with
  | nil =>
    intro out a h
    simp only [List.length_nil, List.range'_zero, List.zip_nil_right,
      writePairs, List.foldl_nil, Nat.add_zero, List.append_nil]
    exact (List.take_append_drop a out).symm
  | cons v vs ih =>
    intro out a h
    simp only [List.length_cons] at h ⊢
    rw [List.range'_succ, List.zip_cons_cons]
    have hstep : writePairs out ((a, v) :: (List.range' (a + 1) vs.length).zip vs)
        = writePairs (out.set a v) ((List.range' (a + 1) vs.length).zip vs) := rfl
    rw [hstep, ih (out.set a v) (a + 1) (by simp; omega)]
    rw [take_succ_set out a v (by omega),
      drop_set_lt out a (a + 1 + vs.length) v (by omega)]
    rw [show a + (vs.length + 1) = a + 1 + vs.length by omega]
    simp [List.append_assoc]

/-- The single-row benign configuration: `max_interval = 0`, no mask,
no thresholds, `discretize = 0`, no mirror and no splice, horizontal
default path over a one-row image.  `sort_image` reduces to one stable
sort of the whole row. -/
theorem sortImage_singleRow (row : List Pixel) (keyOpt : Option (Pixel → ℚ))
    (rev : Bool) (pa : ℚ) (rnd : Bool) (ed : Option (List ℚ))
    (iRng sRng : ℕ → ℕ) (edF : List Pixel → ℕ × ℕ → List ℚ) :
    sortImage
      { size := (row.length, 1), progressiveAmount := pa, randomize := rnd,
        edgeData := ed, key := keyOpt, reverse := rev, intervalRng := iRng,
        spliceRng := sRng, edgeDetect := edF } row =
      pySorted keyOpt 0 rev row := by
  set cfg : SortCfg :=
    { size := (row.length, 1), progressiveAmount := pa, randomize := rnd,
      edgeData := ed, key := keyOpt, reverse := rev, intervalRng := iRng,
      spliceRng := sRng, edgeDetect := edF } with hcfg
  have hpath : sortPath cfg = [(List.range row.length).map fun x => (x, 0)] := by
    simp only [sortPath, hcfg]
    simp [horizontalPath, show List.range 1 = [0] by decide]
  have hbrk : ∀ idx, breakAt cfg.imageMask (effEdgeData cfg row)
      cfg.edgeThreshold (effImageThreshold cfg) row idx = false := by
    intro idx
    have h1 : cfg.imageMask = none := rfl
    have h2 : cfg.edgeThreshold = 0 := rfl
    have h3 : effImageThreshold cfg = none := rfl
    rw [h1, h2, h3, breakAt_disabled]
  have hmap : (List.range row.length).map
      (fun x => coordsToIndex (x, 0) cfg.size.1) = List.range row.length := by
    simp only [coordsToIndex, Nat.zero_mul, Nat.zero_add]
    exact List.map_id' _
  have hruns : computeRuns cfg row (sortPath cfg) =
      if row = [] then [] else [List.range row.length] := by
    rw [computeRuns, hpath, initialCmi_zero cfg rfl, pathRuns,
      rowRuns_zero cfg rfl _ hbrk]
    simp only [pathRuns, List.append_nil, List.map_map]
    rw [show ((fun x => coordsToIndex x cfg.size.1) ∘ fun x => ((x, 0) : Coord))
        = fun x => coordsToIndex (x, 0) cfg.size.1 from rfl, hmap]
    by_cases hrow : row = []
    · subst hrow; simp
    · rw [if_neg (by simpa using hrow), if_neg hrow]
  rw [sortImage, hruns]
  by_cases hrow : row = []
  · subst hrow
    simp only [if_pos rfl, applyRuns]
    exact (List.length_eq_zero.mp (pySorted_length keyOpt 0 rev [])).symm
  · rw [if_neg hrow]
    show applyRun cfg 0 row (List.range row.length) = pySorted keyOpt 0 rev row
    rw [applyRun]
    simp only []
    rw [map_getD_range row (0, 0, 0)]
    show writePairs row ((List.range row.length).zip
      (sortFilter (sRng 0) false 0 false (pySorted keyOpt 0 rev row))) =
      pySorted keyOpt 0 rev row
    rw [sortFilter_noop, List.range_eq_range']
    rw [show List.range' 0 row.length =
        List.range' 0 (pySorted keyOpt 0 rev row).length by
      rw [pySorted_length]]
    rw [writePairs_range' (pySorted keyOpt 0 rev row) row 0
      (by rw [pySorted_length]; omega)]
    simp [pySorted_length]

/-! ## Claim C1 -/

/-- Claim C1 counterexample: a configuration satisfying all constraints
stated by the claim (`max_interval = 0`, randomize disabled, no image
mask, no edge threshold, no image threshold) but with `mirror = true`
does not return the stably sorted row: mirroring rearranges the sorted
pixels, so the claim as stated (quantified over every such
configuration) is false on its own example row. -/
theorem c1_mirror_breaks_sortedness :
    sortImage { size := (3, 1), key := some red, mirror := true }
      [(3, 0, 0), (1, 0, 0), (2, 0, 0)] ≠ [(1, 0, 0), (2, 0, 0), (3, 0, 0)] := by
  decide

/-- Claim C1 (amended): for every single-row image and every
configuration with `max_interval = 0`, randomize disabled, no image
mask, no edge threshold, no image threshold, and additionally the
default post-sort settings (`discretize = 0`, mirror disabled,
`splice = 0`, `splice_random` disabled) and the horizontal default
path, `sort_image` returns the row stably sorted ascending by the
injected key (descending when `reverse` is set) — `pySorted` is the
model of Python's stable `sorted`; in particular the row
`[(3,0,0),(1,0,0),(2,0,0)]` with `key = red` becomes
`[(1,0,0),(2,0,0),(3,0,0)]`. -/
theorem c1_singleRow_stable_sort :
    (∀ (row : List Pixel) (k : Pixel → ℚ) (rev : Bool) (pa : ℚ) (rnd : Bool)
        (ed : Option (List ℚ)) (iRng sRng : ℕ → ℕ)
        (edF : List Pixel → ℕ × ℕ → List ℚ),
        sortImage
          { size := (row.length, 1), progressiveAmount := pa, randomize := rnd,
            edgeData := ed, key := some k, reverse := rev, intervalRng := iRng,
            spliceRng := sRng, edgeDetect := edF } row =
          pySorted (some k) 0 rev row) ∧
    sortImage { size := (3, 1), key := some red }
      [(3, 0, 0), (1, 0, 0), (2, 0, 0)] = [(1, 0, 0), (2, 0, 0), (3, 0, 0)] := by
  constructor
  · intro row k rev pa rnd ed iRng sRng edF
    exact sortImage_singleRow row (some k) rev pa rnd ed iRng sRng edF
  · decide

/-! ## Claim C2 -/

/-- Claim C2 counterexample: `sort_image` with `key = None` does not
return the input unchanged.  Python's `sorted` with `key=None` compares
the pixel tuples themselves, so the row `[(3,0,0),(1,0,0)]` is
rearranged. -/
theorem c2_keyNone_not_noop :
    sortImage { size := (2, 1) } [(3, 0, 0), (1, 0, 0)] ≠
      [(3, 0, 0), (1, 0, 0)] := by
  decide

/-- Claim C2 (amended): `key = None` is not a no-op: the intervals are
sorted by the natural (lexicographic) order of the pixel tuples, since
Python's `sorted(l, key=None)` compares elements directly.  On a
single-row image under the benign configuration the output is the row
stably sorted by tuple order (`pySorted none`), not the input; in
particular `[(3,0,0),(1,0,0)]` becomes `[(1,0,0),(3,0,0)]`. -/
theorem c2_keyNone_lex_sorts :
    (∀ (row : List Pixel) (rev : Bool) (pa : ℚ) (rnd : Bool)
        (ed : Option (List ℚ)) (iRng sRng : ℕ → ℕ)
        (edF : List Pixel → ℕ × ℕ → List ℚ),
        sortImage
          { size := (row.length, 1), progressiveAmount := pa, randomize := rnd,
            edgeData := ed, key := none, reverse := rev, intervalRng := iRng,
            spliceRng := sRng, edgeDetect := edF } row =
          pySorted none 0 rev row) ∧
    sortImage { size := (2, 1) } [(3, 0, 0), (1, 0, 0)] =
      [(1, 0, 0), (3, 0, 0)] := by
  constructor
  · intro row rev pa rnd ed iRng sRng edF
    exact sortImage_singleRow row none rev pa rnd ed iRng sRng edF
  · decide

/-! ## Claim C4 -/

/-- Claim C4 counterexample: `sort_filter([a,b,c,d], splice=0.5)` is
`[b,c,d,a]`, not the claimed `[c,d,a,b]`: the split index is
`int((n-1)*splice)` (truncation), which is `1` here, not
`round(1.5) = 2`. -/
theorem c4_splice_not_round :
    sortFilter 0 false (1 / 2) false
      [(1, 0, 0), (2, 0, 0), (3, 0, 0), (4, 0, 0)] ≠
      [(3, 0, 0), (4, 0, 0), (1, 0, 0), (2, 0, 0)] := by
  have hval : sortFilter 0 false (1 / 2) false
      [(1, 0, 0), (2, 0, 0), (3, 0, 0), (4, 0, 0)] =
      [(2, 0, 0), (3, 0, 0), (4, 0, 0), (1, 0, 0)] := by
    rw [sortFilter,
      if_neg (by decide :
        ¬([(1, 0, 0), (2, 0, 0), (3, 0, 0), (4, 0, 0)] : List Pixel).length = 0)]
    simp only [Bool.false_eq_true, if_false,
      if_pos (show (0 : ℚ) < 1 / 2 by norm_num)]
    rw [pyInt_eq_floor (by norm_num)]
    rw [show (⌊((([(1, 0, 0), (2, 0, 0), (3, 0, 0), (4, 0, 0)] :
          List Pixel).length : ℚ) - 1) * (1 / 2)⌋).toNat = 1 by
      rw [show ((([(1, 0, 0), (2, 0, 0), (3, 0, 0), (4, 0, 0)] :
          List Pixel).length : ℚ) - 1) * (1 / 2) = 3 / 2 by norm_num]
      rw [show ⌊(3 / 2 : ℚ)⌋ = 1 by rw [Int.floor_eq_iff]; norm_num]
      rfl]
    rfl
  rw [hval]
  decide

/-- Claim C4 (amended): for splice values in `(0, 1]` with
`splice_random` and mirror disabled, `sort_filter` rotates the list at
the split index `⌊(n-1)·splice⌋` (truncation of `(n-1)·splice`, not
rounding), moving the prefix before that index to the end; `splice = 0`
with `splice_random = false` leaves the list unrotated; in particular
`sort_filter([a,b,c,d], splice=0.5) = [b,c,d,a]`. -/
theorem c4_splice_truncated_rotation :
    (∀ (draw : ℕ) (l : List Pixel) (s : ℚ), 0 < s → s ≤ 1 →
        sortFilter draw false s false l =
          l.drop (⌊((l.length : ℚ) - 1) * s⌋).toNat ++
            l.take (⌊((l.length : ℚ) - 1) * s⌋).toNat) ∧
    (∀ (draw : ℕ) (l : List Pixel), sortFilter draw false 0 false l = l) ∧
    ∀ (draw : ℕ) (a b c d : Pixel),
      sortFilter draw false (1 / 2) false [a, b, c, d] = [b, c, d, a] := by
  have main : ∀ (draw : ℕ) (l : List Pixel) (s : ℚ), 0 < s → s ≤ 1 →
      sortFilter draw false s false l =
        l.drop (⌊((l.length : ℚ) - 1) * s⌋).toNat ++
          l.take (⌊((l.length : ℚ) - 1) * s⌋).toNat := by
    intro draw l s hs hs1
    rw [sortFilter]
    by_cases hl : l.length = 0
    · rw [if_pos hl]
      rw [List.length_eq_zero.mp hl]
      simp
    · rw [if_neg hl]
      have hnonneg : 0 ≤ ((l.length : ℚ) - 1) * s := by
        have h1 : (1 : ℚ) ≤ (l.length : ℚ) := by
          exact_mod_cast Nat.one_le_iff_ne_zero.mpr hl
        exact mul_nonneg (by linarith) (le_of_lt hs)
      simp only [Bool.false_eq_true, if_false, if_pos hs]
      rw [pyInt_eq_floor hnonneg]
  refine ⟨main, fun draw l => sortFilter_noop draw l, ?_⟩
  intro draw a b c d
  rw [main draw [a, b, c, d] (1 / 2) (by norm_num) (by norm_num)]
  have hfl : (⌊((([a, b, c, d] : List Pixel).length : ℚ) - 1) * (1 / 2)⌋).toNat
      = 1 := by
    rw [show ((([a, b, c, d] : List Pixel).length : ℚ) - 1) * (1 / 2)
        = 3 / 2 by norm_num]
    rw [show ⌊(3 / 2 : ℚ)⌋ = 1 by rw [Int.floor_eq_iff]; norm_num]
    rfl
  rw [hfl]
  rfl

/-- Claim C4 witness: the amended rotation statement instantiated at
`splice = 1/2` on a concrete four-pixel interval, with both hypotheses
discharged. -/
theorem c4_splice_witness :
    (0 : ℚ) < 1 / 2 ∧ (1 / 2 : ℚ) ≤ 1 ∧
    sortFilter 0 false (1 / 2) false
      [(1, 0, 0), (2, 0, 0), (3, 0, 0), (4, 0, 0)] =
      ([(1, 0, 0), (2, 0, 0), (3, 0, 0), (4, 0, 0)] : List Pixel).drop
        (⌊((([(1, 0, 0), (2, 0, 0), (3, 0, 0), (4, 0, 0)] :
          List Pixel).length : ℚ) - 1) * (1 / 2)⌋).toNat ++
      ([(1, 0, 0), (2, 0, 0), (3, 0, 0), (4, 0, 0)] : List Pixel).take
        (⌊((([(1, 0, 0), (2, 0, 0), (3, 0, 0), (4, 0, 0)] :
          List Pixel).length : ℚ) - 1) * (1 / 2)⌋).toNat :=
  ⟨by norm_num, by norm_num,
    c4_splice_truncated_rotation.1 0 _ (1 / 2) (by norm_num) (by norm_num)⟩

/-! ## Claim C5 -/

/-- Claim C5: `sort_filter` with `mirror = true` places the elements
alternately at the front and the back of a new list — the elements at
even positions go to the front in order, the elements at odd positions
go to the back outermost-first (a palindromic redistribution); in
particular `sort_filter([a,b,c,d], mirror=True) = [a,c,d,b]`. -/
theorem c5_mirror_alternating :
    (∀ (draw : ℕ) (l : List Pixel),
        sortFilter draw true 0 false l = evens l ++ (odds l).reverse) ∧
    ∀ (draw : ℕ) (a b c d : Pixel),
      sortFilter draw true 0 false [a, b, c, d] = [a, c, d, b] := by
  have main : ∀ (draw : ℕ) (l : List Pixel),
      sortFilter draw true 0 false l = evens l ++ (odds l).reverse := by
    intro draw l
    rw [sortFilter]
    by_cases hl : l.length = 0
    · rw [if_pos hl, List.length_eq_zero.mp hl]
      simp [evens, odds]
    · rw [if_neg hl]
      simp [mirrorList_eq, lt_irrefl]
  refine ⟨main, fun draw a b c d => ?_⟩
  rw [main draw [a, b, c, d]]
  simp [evens, odds]

/-! ## Claim C6 -/

/-- Claim C6 counterexample: `draw_line` switches the axes only under
the test `slope > 1`, so for `slope = -2` — whose absolute value
exceeds 1 — the axes are not swapped, refuting the claim that the swap
happens whenever `|slope| > 1`. -/
theorem c6_steep_negative_not_switched :
    (lineParams (-2)).2 = false ∧ (1 : ℚ) < |(-2 : ℚ)| := by
  decide

theorem drawLineGo_mem_inBounds (x0 y0 : ℤ) (size : ℤ × ℤ) (slopeA : ℚ)
    (sgn : ℤ) (switch : Bool) :
    ∀ (fuel : ℕ) (dx dy : ℤ) (err : ℚ) (cur p : ℤ × ℤ),
      p ∈ drawLineGo x0 y0 size slopeA sgn switch fuel dx dy err cur →
      inBounds (0, 0) size p = true := by
  intro fuel
  induction fuel with
  | zero => intro dx dy err cur p hp; simp [drawLineGo] at hp
  | succ fuel ih =>
    intro dx dy err cur p hp
    rw [drawLineGo] at hp
    by_cases hb : inBounds (0, 0) size cur = true
    · rw [if_pos hb] at hp
      rcases List.mem_cons.mp hp with h | h
      · subst h; exact hb
      · exact ih _ _ _ _ p h
    · rw [if_neg hb] at hp
      simp at hp

/-- Claim C6 (amended): the angled-line rasterizer swaps the roles of
the x and y axes exactly when `slope > 1` (strictly positive steep
slopes) — not whenever `|slope| > 1`; slopes below `-1` run the
unswapped stepping.  Every coordinate a line yields lies inside
`[0,W) × [0,H)`, and generation stops at the first out-of-bounds
point. -/
theorem c6_switch_iff_and_bounded :
    (∀ s : ℚ, (lineParams s).2 = true ↔ 1 < s) ∧
    ∀ (fuel : ℕ) (st size : ℤ × ℤ) (s : ℚ) (p : ℤ × ℤ),
      p ∈ drawLine fuel st size s → inBounds (0, 0) size p = true := by
  constructor
  · intro s
    rw [lineParams]
    by_cases h : 1 < s
    · rw [if_pos h]; simpa using h
    · rw [if_neg h]; simpa using h
  · intro fuel st size s p hp
    rw [drawLine] at hp
    exact drawLineGo_mem_inBounds st.1 st.2 size _ _ _ fuel 0 0 (-1) st p hp

/-- Claim C6 witness: the bounded-generation statement applied to the
start point of a concrete steep-negative-slope line. -/
theorem c6_bounded_witness :
    ((0 : ℤ), (2 : ℤ)) ∈ drawLine 10 (0, 2) (3, 3) (-2) ∧
    inBounds (0, 0) (3, 3) ((0 : ℤ), (2 : ℤ)) = true := by
  have hmem : ((0 : ℤ), (2 : ℤ)) ∈ drawLine 10 (0, 2) (3, 3) (-2) := by
    rw [drawLine]
    show ((0 : ℤ), (2 : ℤ)) ∈ drawLineGo 0 2 (3, 3) (lineParams (-2)).1
      (signQ (lineParams (-2)).1) (lineParams (-2)).2 10 0 0 (-1) (0, 2)
    rw [show (10 : ℕ) = 9 + 1 from rfl, drawLineGo, if_pos (by decide)]
    exact List.mem_cons_self _ _
  exact ⟨hmem, c6_switch_iff_and_bounded.2 10 (0, 2) (3, 3) (-2) (0, 2) hmem⟩

/-! ## Claim C7 -/

/-- Claim C7: `concentric_rectangle_path((4,3))` yields exactly two
rows — the full 10-pixel clockwise perimeter starting at `(0,0)` and
then the inner row `[(1,1),(2,1)]` — and for every rectangle of height
1 the perimeter iterator emits only the top edge (in particular it
never re-traverses the top edge as a bottom edge: the row is
duplicate-free). -/
theorem c7_concentric_rectangle :
    concentricRectanglePath (4, 3) =
      [[(0, 0), (1, 0), (2, 0), (3, 0), (3, 1), (3, 2), (2, 2), (1, 2),
        (0, 2), (0, 1)],
       [(1, 1), (2, 1)]] ∧
    ∀ (mX MX mY MY : ℤ), mY + 1 = MY →
      concRectIter mX MX mY MY = (ascRange mX MX).map (fun x => (x, mY)) ∧
      (concRectIter mX MX mY MY).Nodup := by
  constructor
  · rw [concentricRectanglePath, concRectRows, concRectRows, concRectRows]
    decide
  · intro mX MX mY MY h
    have heq : concRectIter mX MX mY MY =
        (ascRange mX MX).map (fun x => (x, mY)) := by
      rw [concRectIter, if_pos h]
    refine ⟨heq, ?_⟩
    rw [heq]
    apply List.Nodup.map
    · intro a b hab
      simpa using hab
    · apply List.Nodup.map
      · intro a b hab
        simp only [add_right_inj, Nat.cast_inj] at hab
        exact hab
      · exact List.nodup_range _
  

/-- Claim C7 witness: the height-1 statement applied to the concrete
degenerate rectangle `[0,4) × [0,1)`. -/
theorem c7_height_one_witness :
    concRectIter 0 4 0 1 = (ascRange 0 4).map (fun x => (x, 0)) ∧
    (concRectIter 0 4 0 1).Nodup :=
  c7_concentric_rectangle.2 0 4 0 1 rfl

/-! ## Claim C8 -/

theorem distLookup_cons (e : (ℤ × ℤ) × ℚ) (d : List ((ℤ × ℤ) × ℚ))
    (k : ℤ × ℤ) :
    distLookup (e :: d) k = if e.1 = k then some e.2 else distLookup d k := by
  by_cases h : e.1 = k
  · simp [distLookup, List.find?_cons_of_pos, h]
  · simp [distLookup, List.find?_cons_of_neg, h]

theorem distLookup_append (d₁ d₂ : List ((ℤ × ℤ) × ℚ)) (k : ℤ × ℤ) :
    distLookup (d₁ ++ d₂) k =
      match distLookup d₁ k with
      | some v => some v
      | none => distLookup d₂ k := by
  induction d₁ with
  | nil => simp [distLookup]
  | cons e d₁ ih =>
    rw [List.cons_append, distLookup_cons, distLookup_cons]
    by_cases h : e.1 = k
    · simp [h]
    · simp [h, ih]

theorem distLookup_zeroed (L : List (ℤ × ℤ)) (n : ℤ × ℤ) (hn : n ∈ L) :
    distLookup (L.map fun m => (m, (0 : ℚ))) n = some 0 := by
  induction L with
  | nil => cases hn
  | cons m L ih =>
    rw [List.map_cons, distLookup_cons]
    by_cases h : m = n
    · simp [h]
    · rcases List.mem_cons.mp hn with h' | h'
      · exact absurd h'.symm h
      · simp only [h, if_false]
        exact ih h'

theorem distLookup_map_div (d : List ((ℤ × ℤ) × ℚ)) (s : ℚ) (k : ℤ × ℤ) :
    distLookup (d.map fun e => (e.1, e.2 / s)) k =
      (distLookup d k).map (· / s) := by
  induction d with
  | nil => simp [distLookup]
  | cons e d ih =>
    rw [List.map_cons, distLookup_cons, distLookup_cons]
    by_cases h : e.1 = k
    · simp [h]
    · simp [h, ih]

theorem sum_map_div (L : List (ℤ × ℤ)) (g : ℤ × ℤ → ℚ) (s : ℚ) :
    (L.map fun n => g n / s).sum = (L.map g).sum / s := by
  induction L with
  | nil => simp
  | cons a L ih => simp [ih, add_div]

theorem neighborSum_map_div (d : List ((ℤ × ℤ) × ℚ)) (s : ℚ) :
    neighborSum (d.map fun e => (e.1, e.2 / s)) = neighborSum d / s := by
  rw [neighborSum, neighborSum,
    show (neighbors.map fun n =>
        (distLookup (d.map fun e => (e.1, e.2 / s)) n).getD 0) =
      neighbors.map fun n => (distLookup d n).getD 0 / s by
      apply List.map_congr_left
      intro n _
      rw [distLookup_map_div]
      cases distLookup d n with
      | none => simp
      | some v => simp]
  exact sum_map_div neighbors (fun n => (distLookup d n).getD 0) s

/-- Claim C8: the distribution handling of `random_walk_path` for a
caller-supplied distribution fills every omitted neighbor with weight
0, reports an error exactly when the 8 neighbor weights sum to a
nonpositive value, and otherwise normalizes so the 8 neighbor weights
sum to 1 — all before any walk is generated (the normalization runs
before the walk iterators are built). -/
theorem c8_distribution_normalized (d : List ((ℤ × ℤ) × ℚ)) :
    (∀ n ∈ neighbors, distLookup (fillNeighbors d) n =
      some ((distLookup d n).getD 0)) ∧
    ((∃ msg, normalizeDistribution d = Except.error msg) ↔
      neighborSum (fillNeighbors d) ≤ 0) ∧
    ∀ out, normalizeDistribution d = Except.ok out → neighborSum out = 1 := by
  refine ⟨?_, ?_, ?_⟩
  · intro n hn
    rw [fillNeighbors, distLookup_append]
    cases hl : distLookup d n with
    | some v => simp
    | none =>
      simp only
      rw [distLookup_zeroed _ n
        (List.mem_filter.mpr ⟨hn, by simp [hl]⟩)]
      simp
  · by_cases h : neighborSum (fillNeighbors d) ≤ 0 <;>
      simp [normalizeDistribution, h]
  · intro out hout
    by_cases h : neighborSum (fillNeighbors d) ≤ 0
    · simp [normalizeDistribution, h] at hout
    · simp only [normalizeDistribution, if_neg h, Except.ok.injEq] at hout
      subst hout
      rw [neighborSum_map_div]
      exact div_self (ne_of_gt (lt_of_not_le h))

/-- Claim C8 witness: the fill rule applied to a concrete distribution
that omits seven of the eight neighbors. -/
theorem c8_fill_witness :
    (((1, 0) : ℤ × ℤ) ∈ neighbors) ∧
    distLookup (fillNeighbors [((1, 0), 2)]) (1, 0) =
      some ((distLookup [((1, 0), 2)] (1, 0)).getD 0) :=
  ⟨by decide, (c8_distribution_normalized [((1, 0), 2)]).1 (1, 0) (by decide)⟩

/-! ## Claim C3 -/

theorem mask_getD_cases (mask : List ℚ) (hm : ∀ v ∈ mask, v = 0 ∨ v = 1)
    (i : ℕ) : mask.getD i 0 = 0 ∨ mask.getD i 0 = 1 := by
  by_cases h : i < mask.length
  · rw [List.getD_eq_getElem mask 0 h]
    exact hm _ (List.getElem_mem h)
  · rw [List.getD_eq_default mask 0 (by omega)]
    exact Or.inl rfl

theorem maskRunsGo_spec (mask : List ℚ) (rQ : ℕ → ℚ)
    (hm : ∀ v ∈ mask, v = 0 ∨ v = 1) (hr : ∀ k, 0 ≤ rQ k) :
    ∀ (row acc : List ℕ) (ctr : ℕ), (∀ j ∈ acc, mask.getD j 0 ≠ 1) →
      (∀ run ∈ (maskRunsGo mask rQ row acc ctr).1,
        run ≠ [] ∧
        (∃ b, run.getLast? = some b ∧ mask.getD b 0 = 1) ∧
        ∀ j ∈ run.dropLast, mask.getD j 0 ≠ 1) ∧
      ∀ j ∈ (maskRunsGo mask rQ row acc ctr).2.1, mask.getD j 0 ≠ 1 := by
  intro row
  induction row with
  | nil =>
    intro acc ctr hacc
    constructor
    · intro run hrun
      simp [maskRunsGo] at hrun
    · intro j hj
      simp only [maskRunsGo] at hj
      exact hacc j hj
  | cons i rest ih =>
    intro acc ctr hacc
    rw [maskRunsGo]
    by_cases hb : mask.getD i 0 = 1
    · have hhit : (if mask.getD i 0 = 1 then (true, ctr)
          else (decide (rQ ctr < mask.getD i 0), ctr + 1)) = (true, ctr) :=
        if_pos hb
      rw [hhit, if_pos rfl]
      have hrest := ih [] ctr (by simp)
      constructor
      · intro run hrun
        rcases List.mem_cons.mp hrun with h | h
        · subst h
          refine ⟨by simp, ⟨i, List.getLast?_concat acc, hb⟩, ?_⟩
          rw [List.dropLast_concat]
          exact hacc
        · exact hrest.1 run h
      · exact hrest.2
    · have hzero : mask.getD i 0 = 0 :=
        (mask_getD_cases mask hm i).resolve_right hb
      have hhit : (if mask.getD i 0 = 1 then (true, ctr)
          else (decide (rQ ctr < mask.getD i 0), ctr + 1)) =
          (false, ctr + 1) := by
        rw [if_neg hb, hzero, decide_eq_false (not_lt.mpr (hr ctr))]
      rw [hhit, if_neg (by simp)]
      apply ih (acc ++ [i]) (ctr + 1)
      intro j hj
      rcases List.mem_append.mp hj with h | h
      · exact hacc j h
      · rw [List.mem_singleton.mp h]
        exact hb

/-- Claim C3: walking a path row against a 0/1 sort mask (the `random()`
draws being nonnegative, fractional mask values absent), every flushed
run is nonempty, its last index is boundary-marked (the boundary pixel
participates in and terminates the run it ends) and none of its earlier
indices is boundary-marked; the pending indices left when the row is
exhausted contain no boundary-marked pixel, and no empty run is ever
flushed. -/
theorem c3_run_boundaries (mask : List ℚ) (rQ : ℕ → ℚ) (width : ℕ)
    (hm : ∀ v ∈ mask, v = 0 ∨ v = 1) (hr : ∀ k, 0 ≤ rQ k)
    (row : List Coord) (ctr : ℕ) :
    (∀ run ∈ (maskRunsGo mask rQ
        (row.map fun c => coordsToIndex c width) [] ctr).1,
      run ≠ [] ∧
      (∃ b, run.getLast? = some b ∧ mask.getD b 0 = 1) ∧
      ∀ j ∈ run.dropLast, mask.getD j 0 ≠ 1) ∧
    ∀ j ∈ (maskRunsGo mask rQ
        (row.map fun c => coordsToIndex c width) [] ctr).2.1,
      mask.getD j 0 ≠ 1 :=
  maskRunsGo_spec mask rQ hm hr _ [] ctr (by simp)

/-- Claim C3 witness: the boundary statement applied to the concrete
mask `[0,1,0]` on a three-pixel row: one run `[0,1]` ending at the
boundary index 1 is flushed, index 2 stays pending. -/
theorem c3_boundary_witness :
    (∀ v ∈ ([0, 1, 0] : List ℚ), v = 0 ∨ v = 1) ∧
    (∀ run ∈ (maskRunsGo [0, 1, 0] (fun _ => 0)
        (([(0, 0), (1, 0), (2, 0)] : List Coord).map
          fun c => coordsToIndex c 3) [] 0).1,
      run ≠ [] ∧
      (∃ b, run.getLast? = some b ∧ ([0, 1, 0] : List ℚ).getD b 0 = 1) ∧
      ∀ j ∈ run.dropLast, ([0, 1, 0] : List ℚ).getD j 0 ≠ 1) ∧
    ∀ j ∈ (maskRunsGo [0, 1, 0] (fun _ => 0)
        (([(0, 0), (1, 0), (2, 0)] : List Coord).map
          fun c => coordsToIndex c 3) [] 0).2.1,
      ([0, 1, 0] : List ℚ).getD j 0 ≠ 1 := by
  have h := c3_run_boundaries [0, 1, 0] (fun _ => 0) 3 (by decide)
    (fun k => le_refl 0) [(0, 0), (1, 0), (2, 0)] 0
  exact ⟨by decide, h.1, h.2⟩

/-! ## Claim C9 -/

theorem writePairs_length :
    ∀ (ps : List (ℕ × Pixel)) (out : List Pixel),
      (writePairs out ps).length = out.length := by
  intro ps
  induction ps with
  | nil => intro out; rfl
  | cons p ps ih =>
    intro out
    show (writePairs (out.set p.1 p.2) ps).length = out.length
    rw [ih, List.length_set]

theorem applyRun_length (cfg : SortCfg) (k : ℕ) (out : List Pixel)
    (run : List ℕ) : (applyRun cfg k out run).length = out.length :=
  writePairs_length _ out

theorem applyRunsSt_eq (cfg : SortCfg) :
    ∀ (runs : List (List ℕ)) (k : ℕ) (st : SortSt),
      applyRunsSt cfg runs k st =
        { img := st.img, out := applyRuns cfg runs k st.out } := by
  intro runs
  induction runs with
  | nil => intro k st; rfl
  | cons run rs ih =>
    intro k st
    rw [applyRunsSt, ih, applyRuns]
    rfl

theorem applyRuns_length (cfg : SortCfg) :
    ∀ (runs : List (List ℕ)) (k : ℕ) (out : List Pixel),
      (applyRuns cfg runs k out).length = out.length := by
  intro runs
  induction runs with
  | nil => intro k out; rfl
  | cons run rs ih =>
    intro k out
    rw [applyRuns, ih, applyRun_length]

/-- Claim C9: `sort_image` never mutates the caller's input pixel list.
In the explicit two-buffer state every write targets the output buffer,
so the input component is returned unchanged, and the result is the
freshly allocated output list (initialized as a copy of the input) of
the same length as the input. -/
theorem c9_input_untouched (cfg : SortCfg) (image : List Pixel) :
    sortImageSt cfg { img := image, out := image } =
      { img := image, out := sortImage cfg image } ∧
    (sortImage cfg image).length = image.length := by
  constructor
  · rw [sortImageSt, applyRunsSt_eq, sortImage]
  · rw [sortImage, applyRuns_length]

/-! ## Claim C10 -/

theorem getD_set_ne (l : List Pixel) (i j : ℕ) (v d : Pixel) (h : i ≠ j) :
    (l.set i v).getD j d = l.getD j d := by
  rw [List.getD_eq_getElem?_getD, List.getD_eq_getElem?_getD,
    List.getElem?_set_ne h]

theorem multiset_set (out : List Pixel) (i : ℕ) (v : Pixel)
    (h : i < out.length) :
    out.getD i (0, 0, 0) ::ₘ (↑(out.set i v) : Multiset Pixel) =
      v ::ₘ ↑out := by
  have hout : out = out.take i ++ out.getD i (0, 0, 0) :: out.drop (i + 1) := by
    rw [List.getD_eq_getElem out _ h, ← List.drop_eq_getElem_cons h,
      List.take_append_drop]
  conv_rhs => rw [hout]
  rw [List.set_eq_take_cons_drop v h]
  have hcoe : ∀ (A B : List Pixel) (a : Pixel),
      (↑(A ++ a :: B) : Multiset Pixel) = ↑A + (a ::ₘ ↑B) := fun A B a => rfl
  rw [hcoe, hcoe]
  simp only [← Multiset.singleton_add]
  abel

theorem writePairs_multiset :
    ∀ (run : List ℕ) (vals out : List Pixel), run.Nodup →
      (∀ i ∈ run, i < out.length) → vals.length = run.length →
      (↑(writePairs out (run.zip vals)) +
        ↑(run.map fun i => out.getD i (0, 0, 0)) : Multiset Pixel) =
        ↑out + ↑vals := by
  intro run
  induction run with
  | nil =>
    intro vals out _ _ hlen
    have hv : vals = [] := List.length_eq_zero.mp (by simpa using hlen)
    subst hv
    rfl
  | cons i run' ih =>
    intro vals out hnd hbound hlen
    cases vals with
    | nil => simp at hlen
    | cons v vs =>
      rw [List.zip_cons_cons]
      have hstep : writePairs out ((i, v) :: run'.zip vs) =
          writePairs (out.set i v) (run'.zip vs) := rfl
      rw [hstep, List.map_cons]
      have hmap : run'.map (fun j => out.getD j (0, 0, 0)) =
          run'.map fun j => (out.set i v).getD j (0, 0, 0) := by
        apply List.map_congr_left
        intro j hj
        exact (getD_set_ne out i j v (0, 0, 0)
          (fun hij => (List.nodup_cons.mp hnd).1 (hij ▸ hj))).symm
      have hih := ih vs (out.set i v) (List.nodup_cons.mp hnd).2
        (fun j hj => by
          rw [List.length_set]
          exact hbound j (List.mem_cons_of_mem i hj))
        (by simpa using Nat.succ_injective hlen)
      have hset : ({out.getD i (0, 0, 0)} : Multiset Pixel) + ↑(out.set i v)
          = {v} + ↑out := by
        rw [Multiset.singleton_add, Multiset.singleton_add]
        exact multiset_set out i v (hbound i (by simp))
      rw [hmap, ← Multiset.cons_coe,
        show (↑(v :: vs) : Multiset Pixel) = v ::ₘ ↑vs from rfl,
        ← Multiset.singleton_add, ← Multiset.singleton_add]
      calc (↑(writePairs (out.set i v) (run'.zip vs)) : Multiset Pixel) +
          ({out.getD i (0, 0, 0)} +
            ↑(run'.map fun j => (out.set i v).getD j (0, 0, 0)))
          = (↑(writePairs (out.set i v) (run'.zip vs)) +
              ↑(run'.map fun j => (out.set i v).getD j (0, 0, 0))) +
              {out.getD i (0, 0, 0)} := by abel
        _ = (↑(out.set i v) + ↑vs) + {out.getD i (0, 0, 0)} := by rw [hih]
        _ = ({out.getD i (0, 0, 0)} + ↑(out.set i v)) + ↑vs := by abel
        _ = ({v} + ↑out) + ↑vs := by rw [hset]
        _ = ↑out + ({v} + ↑vs) := by abel

theorem sortFilter_perm (draw : ℕ) (m : Bool) (s : ℚ) (sr : Bool)
    (l : List Pixel) : (sortFilter draw m s sr l).Perm l := by
  rw [sortFilter]
  by_cases hl : l.length = 0
  · rw [if_pos hl]
  · rw [if_neg hl]
    have hperm : (if m then mirrorList l else l).Perm l := by
      split
      · exact mirrorList_perm l
      · exact List.Perm.refl l
    cases hS : (if sr then some draw
        else if 0 < s then some (pyInt ((l.length - 1 : ℚ) * s)).toNat
        else none) with
    | none => exact hperm
    | some st =>
      refine List.Perm.trans ?_ hperm
      refine List.perm_append_comm.trans ?_
      rw [List.take_append_drop]

theorem sortFilter_length (draw : ℕ) (m : Bool) (s : ℚ) (sr : Bool)
    (l : List Pixel) : (sortFilter draw m s sr l).length = l.length :=
  (sortFilter_perm draw m s sr l).length_eq

theorem applyRun_perm (cfg : SortCfg) (k : ℕ) (out : List Pixel)
    (run : List ℕ) (hnd : run.Nodup) (hbound : ∀ i ∈ run, i < out.length) :
    (applyRun cfg k out run).Perm out := by
  rw [applyRun]
  set gathered := run.map fun i => out.getD i (0, 0, 0) with hg
  set finalPx := sortFilter (cfg.spliceRng k) cfg.mirror cfg.splice
    cfg.spliceRandom (pySorted cfg.key cfg.discretize cfg.reverse gathered)
    with hf
  have hperm : finalPx.Perm gathered :=
    (sortFilter_perm _ _ _ _ _).trans (pySorted_perm _ _ _ _)
  have hlen : finalPx.length = run.length := by
    rw [hf, sortFilter_length, pySorted_length, hg, List.length_map]
  rw [← Multiset.coe_eq_coe]
  have hw := writePairs_multiset run finalPx out hnd hbound hlen
  have hvals : (↑finalPx : Multiset Pixel) = ↑gathered :=
    Multiset.coe_eq_coe.mpr hperm
  rw [hvals] at hw
  exact add_right_cancel hw

theorem applyRuns_perm (cfg : SortCfg) :
    ∀ (runs : List (List ℕ)) (k : ℕ) (out : List Pixel),
      (∀ run ∈ runs, run.Nodup ∧ ∀ i ∈ run, i < out.length) →
      (applyRuns cfg runs k out).Perm out := by
  intro runs
  induction runs with
  | nil => intro k out _; exact List.Perm.refl out
  | cons run rs ih =>
    intro k out h
    rw [applyRuns]
    have h0 := h run (List.mem_cons_self run rs)
    refine (ih (k + 1) (applyRun cfg k out run) fun r hr => ?_).trans
      (applyRun_perm cfg k out run h0.1 h0.2)
    refine ⟨(h r (List.mem_cons_of_mem run hr)).1, fun i hi => ?_⟩
    rw [applyRun_length]
    exact (h r (List.mem_cons_of_mem run hr)).2 i hi

/-- Claim C10: for every image and configuration whose computed runs
visit each pixel index at most once per run (and stay in bounds), the
output of `sort_image` is a permutation of the input pixel list: each
run writes back a rearrangement of exactly the pixels it gathered, and
`pySorted` and `sort_filter` are permutations of their input. -/
theorem c10_output_is_permutation (cfg : SortCfg) (image : List Pixel)
    (h : ∀ run ∈ computeRuns cfg image (sortPath cfg),
      run.Nodup ∧ ∀ i ∈ run, i < image.length) :
    (sortImage cfg image).Perm image := by
  rw [sortImage]
  exact applyRuns_perm cfg _ 0 image h

/-- Claim C10 witness: the permutation statement applied to a concrete
two-pixel image whose single run is `[0, 1]`. -/
theorem c10_permutation_witness :
    (∀ run ∈ computeRuns { size := (2, 1), key := some red }
        [(2, 0, 0), (1, 0, 0)]
        (sortPath { size := (2, 1), key := some red }),
      run.Nodup ∧ ∀ i ∈ run,
        i < ([(2, 0, 0), (1, 0, 0)] : List Pixel).length) ∧
    (sortImage { size := (2, 1), key := some red }
      [(2, 0, 0), (1, 0, 0)]).Perm [(2, 0, 0), (1, 0, 0)] :=
  ⟨by decide, c10_output_is_permutation _ _ (by decide)⟩
